import Mathlib

/-!
Shallow embedding of the Monte-Carlo timer simulation engine
(`run_biased_timer_simulation` and the percentile reporting of `main`)
from the Streamlit Timer repository.

Modelling conventions:
* Probabilities and random draws live in a linear ordered field `α`
  (`ℚ` for the coarse weekly variant, `ℝ` for the fine daily variant,
  whose probability conversion needs a real seventh root).
* The global numpy random generator is modelled as an explicit stream
  `rand : ℕ → α` together with a cursor: each call `np.random.rand()`
  reads `rand cursor` and advances the cursor by one.
* The Python `while week < max_weeks` loop, whose counter starts at 0 and
  increases by 1 each iteration, is expressed by structural recursion on
  the remaining fuel `max_weeks - week`; `step` carries the current value
  of the counter, so the pair `(fuel, step)` keeps `fuel + step` equal to
  `max_weeks` throughout a run started at `(max_weeks, 0)`.
* Python float literals `0.1` and `1.0` are embedded as the exact field
  values `1/10` and `1`; at the only threshold that matters
  (`penalty_fraction >= 1.0`, i.e. rank 10) IEEE doubles and exact
  arithmetic agree, since `0.1 * 10 == 1.0` holds for doubles as well.
-/

namespace Timer

variable {α : Type} [LinearOrderedField α]

/-- `[i for i, occ in enumerate(occurred) if not occ]`: the indices of the
events that have not yet occurred, in original index order. -/
def unoccurredIndices (occurred : List Bool) : List ℕ :=
  (List.range occurred.length).filter fun i => !occurred.getD i false

/-- The inner `for rank, event_index in enumerate(unoccurred_indices)` loop of
`run_biased_timer_simulation`: walk the snapshot of unoccurred indices in
left-to-right order; at rank `r` the penalty is `0.1 * r`; a fully penalized
event (`penalty >= 1.0`) is skipped without consuming a draw; otherwise one
draw is consumed and the event fires iff the draw is below
`f event_index * (1 - penalty)`, where `f` is the per-step probability of an
event (`prob_list[i]` in the coarse variant, its daily conversion in the fine
variant). Returns the updated flags and cursor. -/
def processEvents (f : ℕ → α) (rand : ℕ → α) :
    List ℕ → ℕ → List Bool → ℕ → List Bool × ℕ
  | [], _, occurred, cursor => (occurred, cursor)
  | event_index :: rest, rank, occurred, cursor =>
    if (1 : α) ≤ (1 / 10 : α) * (rank : α) then
      processEvents f rand rest (rank + 1) occurred cursor
    else if rand cursor < f event_index * (1 - (1 / 10 : α) * (rank : α)) then
      processEvents f rand rest (rank + 1) (occurred.set event_index true) (cursor + 1)
    else
      processEvents f rand rest (rank + 1) occurred (cursor + 1)

/-- The `while week < max_weeks` loop of one trial.  Entering an iteration
increments the counter (`step + 1` below, matching `week += 1`), snapshots the
unoccurred indices, breaks if the snapshot is empty, otherwise processes the
events of this step and breaks if now all have occurred.  Returns the final
counter, flags and cursor. -/
def simLoopAux (f : ℕ → α) (rand : ℕ → α) :
    ℕ → ℕ → List Bool → ℕ → ℕ × List Bool × ℕ
  | 0, step, occurred, cursor => (step, occurred, cursor)
  | fuel + 1, step, occurred, cursor =>
    if unoccurredIndices occurred = [] then
      (step + 1, occurred, cursor)
    else if (processEvents f rand (unoccurredIndices occurred) 0 occurred cursor).1.all id then
      (step + 1, (processEvents f rand (unoccurredIndices occurred) 0 occurred cursor).1,
        (processEvents f rand (unoccurredIndices occurred) 0 occurred cursor).2)
    else
      simLoopAux f rand fuel (step + 1)
        (processEvents f rand (unoccurredIndices occurred) 0 occurred cursor).1
        (processEvents f rand (unoccurredIndices occurred) 0 occurred cursor).2

/-- One trial of the coarse (weekly) variant (`Streamlit_Timer_App.py`):
`occurred = [False] * n`, `week = 0`, then the week loop; the recorded value is
the final week counter.  The returned triple is (week, flags, cursor). -/
def simulate_one_trial (prob_list : List α) (rand : ℕ → α)
    (max_weeks : ℕ) (cursor : ℕ) : ℕ × List Bool × ℕ :=
  simLoopAux (fun i => prob_list.getD i 0) rand max_weeks 0
    (List.replicate prob_list.length false) cursor

/-- The `for trial in range(num_samples)` batch loop: run trials one after the
other, threading the random cursor (the shared numpy generator), and collect
the recorded per-trial values in submission order. -/
def collectTrials (trial : ℕ → ℕ × List Bool × ℕ) : ℕ → ℕ → List ℕ
  | 0, _ => []
  | num + 1, cursor => (trial cursor).1 :: collectTrials trial num (trial cursor).2.2

/-- `run_biased_timer_simulation(prob_list, num_samples, max_weeks)` of
`Streamlit_Timer_App.py` (coarse weekly resolution): the list of the
`num_samples` per-trial completion weeks. -/
def run_biased_timer_simulation (prob_list : List α) (rand : ℕ → α)
    (num_samples : ℕ) (max_weeks : ℕ) : List ℕ :=
  collectTrials (simulate_one_trial prob_list rand max_weeks) num_samples 0

/-- `daily_prob = 1 - (1 - weekly_prob)**(1/7)` of
`Streamlit_Timer_App_MP4_Added4.py` (real power, `Real.rpow`).  Caveat:
`Real.rpow` is total, while for `base_weekly > 1` the Python float power has a
negative base and a fractional exponent, yields a complex value, and the
engine then aborts at the draw comparison; a statement that leans on the fine
variant being total is therefore made only for base probabilities at most 1,
where this model is faithful. -/
noncomputable def dailyOf (base_weekly : ℝ) : ℝ :=
  1 - (1 - base_weekly) ^ ((1 : ℝ) / 7)

/-- One trial of the fine (daily) variant (`Streamlit_Timer_App_MP4_Added4.py`):
the day loop runs up to `max_days = max_weeks * 7` with per-day probability
`dailyOf (prob_list[i])`, and the recorded value is
`weeks = math.ceil(day / 7)`, i.e. `(day + 6) / 7` in natural division.
The returned triple is (weeks, flags, cursor). -/
noncomputable def simulate_one_trial_daily (prob_list : List ℝ) (rand : ℕ → ℝ)
    (max_weeks : ℕ) (cursor : ℕ) : ℕ × List Bool × ℕ :=
  (((simLoopAux (fun i => dailyOf (prob_list.getD i 0)) rand (max_weeks * 7) 0
      (List.replicate prob_list.length false) cursor).1 + 6) / 7,
    (simLoopAux (fun i => dailyOf (prob_list.getD i 0)) rand (max_weeks * 7) 0
      (List.replicate prob_list.length false) cursor).2.1,
    (simLoopAux (fun i => dailyOf (prob_list.getD i 0)) rand (max_weeks * 7) 0
      (List.replicate prob_list.length false) cursor).2.2)

/-- `run_biased_timer_simulation` of `Streamlit_Timer_App_MP4_Added4.py`
(fine daily resolution): the list of the `num_samples` per-trial completion
values in weeks (rounded up from days). -/
noncomputable def run_biased_timer_simulation_daily (prob_list : List ℝ)
    (rand : ℕ → ℝ) (num_samples : ℕ) (max_weeks : ℕ) : List ℕ :=
  collectTrials (simulate_one_trial_daily prob_list rand max_weeks) num_samples 0

/-- The random-stream cursor at which trial `i` of a batch starts, when the
batch starts at cursor `c0`: trial 0 starts at `c0`, and each later trial
starts where the previous one left the shared generator. -/
def trialCursor (trial : ℕ → ℕ × List Bool × ℕ) (c0 : ℕ) : ℕ → ℕ
  | 0 => c0
  | i + 1 => (trial (trialCursor trial c0 i)).2.2

/-- `np.percentile(xs, q)` with numpy's default method (linear interpolation):
on the sorted data `s` of length `n`, the virtual index is
`h = (n - 1) * q / 100`, and the result interpolates between `s[⌊h⌋]` and
`s[⌊h⌋ + 1]`.  (numpy is an external library; this models its documented
default behaviour, exact in rational arithmetic.) -/
def npPercentile (xs : List ℚ) (q : ℚ) : ℚ :=
  let s := List.insertionSort (· ≤ ·) xs
  let h := ((xs.length : ℚ) - 1) * q / 100
  let lo := ⌊h⌋.toNat
  let below := s.getD lo 0
  let above := s.getD (lo + 1) below
  below + (h - ⌊h⌋) * (above - below)

/-- Python's `int(...)` on a rational value: truncation toward zero. -/
def pyInt (x : ℚ) : ℤ :=
  if x < 0 then ⌈x⌉ else ⌊x⌋

/-- The three reported summary statistics of `main`
(`Streamlit_Timer_App_Pretty.py` / `Streamlit_Timer_App_MP4_Added4.py`):
`week_25 = int(np.percentile(all_T, 25))` and likewise for 50 and 75. -/
def mainSummary (all_time_weeks : List ℕ) : ℤ × ℤ × ℤ :=
  (pyInt (npPercentile (all_time_weeks.map (Nat.cast : ℕ → ℚ)) 25),
    pyInt (npPercentile (all_time_weeks.map (Nat.cast : ℕ → ℚ)) 50),
    pyInt (npPercentile (all_time_weeks.map (Nat.cast : ℕ → ℚ)) 75))

/-- Following the spec's words, for comparison with the code's reported
statistics: the nearest-rank percentile, the element of the sorted collection
at (1-based) rank `⌈q / 100 * n⌉`. -/
def nearestRankPercentile (xs : List ℚ) (q : ℚ) : ℚ :=
  (List.insertionSort (· ≤ ·) xs).getD ((⌈q * (xs.length : ℚ) / 100⌉).toNat - 1) 0

/-! ### List helpers -/

theorem getD_set_of_ne (l : List Bool) (i j : ℕ) (b d : Bool) (h : i ≠ j) :
    (l.set i b).getD j d = l.getD j d := by
  induction l generalizing i j with
  | nil => rfl
  | cons a t ih =>
    cases i with
    | zero =>
      cases j with
      | zero => exact absurd rfl h
      | succ j => simp [List.getD]
    | succ i =>
      cases j with
      | zero => simp [List.getD]
      | succ j => simpa [List.getD] using ih i j (fun e => h (by omega))

theorem getD_set_self (l : List Bool) (j : ℕ) (b d : Bool) (h : j < l.length) :
    (l.set j b).getD j d = b := by
  induction l generalizing j with
  | nil => simp at h
  | cons a t ih =>
    cases j with
    | zero => rfl
    | succ j => simpa [List.getD] using ih j (by simpa using h)

theorem getD_eq_get {β : Type} (l : List β) (j : ℕ) (d : β) (h : j < l.length) :
    l.getD j d = l.get ⟨j, h⟩ := by
  induction l generalizing j with
  | nil => simp at h
  | cons a t ih =>
    cases j with
    | zero => rfl
    | succ j => simpa [List.getD] using ih j (by simpa using h)

theorem getD_nonneg (l : List ℚ) (j : ℕ) (d : ℚ) (hl : ∀ x ∈ l, 0 ≤ x)
    (hd : 0 ≤ d) : 0 ≤ l.getD j d := by
  induction l generalizing j with
  | nil => simpa [List.getD]
  | cons a t ih =>
    cases j with
    | zero => exact hl a (by simp)
    | succ j => simpa [List.getD] using ih j (fun x hx => hl x (by simp [hx]))

/-! ### The penalty threshold and the step snapshot -/

/-- `0.1 * rank >= 1.0` holds exactly for ranks 10 and beyond. -/
theorem penalty_threshold (ρ : ℕ) : ((1 : α) ≤ (1 / 10 : α) * (ρ : α)) ↔ 10 ≤ ρ := by
  rw [div_mul_eq_mul_div, one_mul, one_le_div (by norm_num : (0 : α) < 10)]
  exact ⟨fun h => by exact_mod_cast h, fun h => by exact_mod_cast h⟩

theorem mem_unoccurredIndices (occ : List Bool) (i : ℕ) :
    i ∈ unoccurredIndices occ ↔ i < occ.length ∧ occ.getD i false = false := by
  simp [unoccurredIndices, List.mem_filter, List.mem_range]

theorem unoccurredIndices_nodup (occ : List Bool) : (unoccurredIndices occ).Nodup :=
  (List.nodup_range _).filter _

theorem all_id_iff_getD (occ : List Bool) :
    occ.all id = true ↔ ∀ i, i < occ.length → occ.getD i false = true := by
  induction occ with
  | nil => simp
  | cons b t ih =>
    simp only [List.all_cons, Bool.and_eq_true, ih, List.length_cons, id]
    constructor
    · rintro ⟨hb, ht⟩ i hi
      cases i with
      | zero => simpa using hb
      | succ i => simpa [List.getD] using ht i (by omega)
    · intro h
      exact ⟨by simpa using h 0 (by omega),
        fun i hi => by simpa [List.getD] using h (i + 1) (by omega)⟩

theorem unoccurredIndices_eq_nil (occ : List Bool) :
    unoccurredIndices occ = [] ↔ occ.all id = true := by
  rw [all_id_iff_getD]
  simp [unoccurredIndices, List.filter_eq_nil_iff, List.mem_range]

/-! ### Behaviour of the inner per-step loop -/

/-- Draw accounting: starting the inner loop at rank `ρ`, exactly one draw is
consumed per processed event whose rank stays below 10, so the cursor advances
by `min l.length (10 - ρ)`. -/
theorem processEvents_cursor (f : ℕ → α) (rand : ℕ → α) :
    ∀ (l : List ℕ) (ρ : ℕ) (occ : List Bool) (c : ℕ),
      (processEvents f rand l ρ occ c).2 = c + min l.length (10 - ρ) := by
  intro l
  induction l with
  | nil => intro ρ occ c; simp [processEvents]
  | cons i rest ih =>
    intro ρ occ c
    by_cases hρ : 10 ≤ ρ
    · simp only [processEvents]
      rw [if_pos ((penalty_threshold ρ).mpr hρ), ih]
      simp only [List.length_cons]
      omega
    · simp only [processEvents]
      rw [if_neg (fun hc => hρ ((penalty_threshold ρ).mp hc))]
      split
      · rw [ih]
        simp only [List.length_cons]
        omega
      · rw [ih]
        simp only [List.length_cons]
        omega

/-- An index that is not in the processed snapshot keeps its flag. -/
theorem processEvents_getD_not_mem (f : ℕ → α) (rand : ℕ → α) :
    ∀ (l : List ℕ) (ρ : ℕ) (occ : List Bool) (c : ℕ) (j : ℕ), j ∉ l →
      (processEvents f rand l ρ occ c).1.getD j false = occ.getD j false := by
  intro l
  induction l with
  | nil => intro ρ occ c j _; simp [processEvents]
  | cons i rest ih =>
    intro ρ occ c j hj
    have hji : i ≠ j := fun e => hj (by simp [e])
    have hjr : j ∉ rest := fun e => hj (by simp [e])
    simp only [processEvents]
    split
    · exact ih _ _ _ _ hjr
    · split
      · rw [ih _ _ _ _ hjr, getD_set_of_ne _ _ _ _ _ hji]
      · exact ih _ _ _ _ hjr

/-- The heart of the tie-break rule: when the inner loop processes a snapshot
`l` of distinct unoccurred indices starting at rank `ρ`, the event at position
`k` of the snapshot ends the step occurred if and only if its snapshot rank
`ρ + k` is below the full-penalty cutoff and its own dedicated draw — the one
at offset `min k (10 - ρ)`, the number of draws consumed by the events to its
left — is below its penalized probability.  In particular an event firing
earlier in the same step changes neither the rank nor the draw of a later
event. -/
theorem processEvents_getD (f : ℕ → α) (rand : ℕ → α) :
    ∀ (l : List ℕ) (ρ c : ℕ) (occ : List Bool) (k : ℕ) (hk : k < l.length),
      l.Nodup →
      occ.getD (l.get ⟨k, hk⟩) false = false →
      l.get ⟨k, hk⟩ < occ.length →
      ((processEvents f rand l ρ occ c).1.getD (l.get ⟨k, hk⟩) false = true ↔
        (ρ + k < 10 ∧
          rand (c + min k (10 - ρ)) <
            f (l.get ⟨k, hk⟩) * (1 - (1 / 10 : α) * ((ρ + k : ℕ) : α)))) := by
  intro l
  induction l with
  | nil => intro ρ c occ k hk; simp at hk
  | cons i rest ih =>
    intro ρ c occ k hk hnd hocc hlen
    have hir : i ∉ rest := (List.nodup_cons.mp hnd).1
    have hrest : rest.Nodup := (List.nodup_cons.mp hnd).2
    cases k with
    | zero =>
      have hget0 : (i :: rest).get ⟨0, hk⟩ = i := rfl
      rw [hget0] at hocc hlen ⊢
      by_cases hρ : 10 ≤ ρ
      · simp only [processEvents]
        rw [if_pos ((penalty_threshold ρ).mpr hρ),
          processEvents_getD_not_mem f rand rest _ _ _ _ hir, hocc]
        constructor
        · intro h; cases h
        · rintro ⟨h1, -⟩; omega
      · simp only [processEvents]
        rw [if_neg (fun hc => hρ ((penalty_threshold ρ).mp hc))]
        have e0 : c + min 0 (10 - ρ) = c := by omega
        have e1 : ρ + 0 = ρ := by omega
        rw [e0, e1]
        by_cases hfire : rand c < f i * (1 - (1 / 10 : α) * (ρ : α))
        · rw [if_pos hfire,
            processEvents_getD_not_mem f rand rest _ _ _ _ hir,
            getD_set_self _ _ _ _ hlen]
          constructor
          · intro _; exact ⟨by omega, hfire⟩
          · intro _; rfl
        · rw [if_neg hfire,
            processEvents_getD_not_mem f rand rest _ _ _ _ hir, hocc]
          constructor
          · intro h; cases h
          · rintro ⟨-, hb⟩; exact absurd hb hfire
    | succ k =>
      have hk' : k < rest.length := by simpa using hk
      have hget : (i :: rest).get ⟨k + 1, hk⟩ = rest.get ⟨k, hk'⟩ := rfl
      rw [hget] at hocc hlen ⊢
      have hine : i ≠ rest.get ⟨k, hk'⟩ :=
        fun e => hir (e ▸ List.get_mem rest k hk')
      by_cases hρ : 10 ≤ ρ
      · simp only [processEvents]
        rw [if_pos ((penalty_threshold ρ).mpr hρ),
          ih (ρ + 1) c occ k hk' hrest hocc hlen]
        have e1 : ρ + 1 + k = ρ + (k + 1) := by omega
        have e2 : c + min k (10 - (ρ + 1)) = c + min (k + 1) (10 - ρ) := by omega
        rw [e1, e2]
      · simp only [processEvents]
        rw [if_neg (fun hc => hρ ((penalty_threshold ρ).mp hc))]
        have e1 : ρ + 1 + k = ρ + (k + 1) := by omega
        have e2 : c + 1 + min k (10 - (ρ + 1)) = c + min (k + 1) (10 - ρ) := by omega
        split
        · rw [ih (ρ + 1) (c + 1) (occ.set i true) k hk' hrest
            (by rw [getD_set_of_ne _ _ _ _ _ hine]; exact hocc)
            (by simpa using hlen), e1, e2]
        · rw [ih (ρ + 1) (c + 1) occ k hk' hrest hocc hlen, e1, e2]

/-- The characterization at the start of a step: ranks come from the snapshot
`unoccurredIndices occ` computed once at the step's start, events are evaluated
left to right, and the event of rank `k` fires iff `k < 10` and its own draw
(the `k`-th of the step) is below `f idx * (1 - 0.1 * k)`. -/
theorem step_flag_char (f : ℕ → α) (rand : ℕ → α) (occ : List Bool) (c k : ℕ)
    (hk : k < (unoccurredIndices occ).length) :
    ((processEvents f rand (unoccurredIndices occ) 0 occ c).1.getD
        ((unoccurredIndices occ).get ⟨k, hk⟩) false = true ↔
      (k < 10 ∧ rand (c + k) <
        f ((unoccurredIndices occ).get ⟨k, hk⟩) * (1 - (1 / 10 : α) * (k : α)))) := by
  have hmem : (unoccurredIndices occ).get ⟨k, hk⟩ ∈ unoccurredIndices occ :=
    List.get_mem _ _ _
  have h1 := (mem_unoccurredIndices occ _).mp hmem
  have h := processEvents_getD f rand (unoccurredIndices occ) 0 c occ k hk
    (unoccurredIndices_nodup occ) h1.2 h1.1
  simp only [Nat.zero_add, Nat.sub_zero] at h
  rw [h]
  constructor
  · rintro ⟨ha, hb⟩
    have emin : min k 10 = k := by omega
    rw [emin] at hb
    exact ⟨ha, hb⟩
  · rintro ⟨ha, hb⟩
    have emin : min k 10 = k := by omega
    rw [emin]
    exact ⟨ha, hb⟩

/-! ### Behaviour of the step loop -/

theorem simLoopAux_le (f : ℕ → α) (rand : ℕ → α) :
    ∀ (fuel step : ℕ) (occ : List Bool) (c : ℕ),
      (simLoopAux f rand fuel step occ c).1 ≤ step + fuel := by
  intro fuel
  induction fuel with
  | zero => intro step occ c; simp [simLoopAux]
  | succ n ih =>
    intro step occ c
    simp only [simLoopAux]
    split
    · simp
    · split
      · simp
      · exact le_trans (ih (step + 1) _ _) (by omega)

theorem simLoopAux_ge_start (f : ℕ → α) (rand : ℕ → α) :
    ∀ (fuel step : ℕ) (occ : List Bool) (c : ℕ),
      step ≤ (simLoopAux f rand fuel step occ c).1 := by
  intro fuel
  induction fuel with
  | zero => intro step occ c; simp [simLoopAux]
  | succ n ih =>
    intro step occ c
    simp only [simLoopAux]
    split
    · simp
    · split
      · simp
      · exact le_trans (by omega) (ih (step + 1) _ _)

theorem simLoopAux_pos (f : ℕ → α) (rand : ℕ → α)
    (fuel step : ℕ) (occ : List Bool) (c : ℕ) (h : 0 < fuel) :
    step + 1 ≤ (simLoopAux f rand fuel step occ c).1 := by
  cases fuel with
  | zero => omega
  | succ n =>
    simp only [simLoopAux]
    split
    · simp
    · split
      · simp
      · exact simLoopAux_ge_start f rand n (step + 1) _ _

/-- If the loop ends with some event still unoccurred, it ran its full fuel:
the final counter is `step + fuel`. -/
theorem simLoopAux_saturate (f : ℕ → α) (rand : ℕ → α) :
    ∀ (fuel step : ℕ) (occ : List Bool) (c : ℕ),
      ¬ ((simLoopAux f rand fuel step occ c).2.1.all id = true) →
      (simLoopAux f rand fuel step occ c).1 = step + fuel := by
  intro fuel
  induction fuel with
  | zero => intro step occ c h; simp [simLoopAux]
  | succ n ih =>
    intro step occ c h
    by_cases h1 : unoccurredIndices occ = []
    · exfalso
      apply h
      simp only [simLoopAux, if_pos h1]
      exact (unoccurredIndices_eq_nil occ).mp h1
    · by_cases h2 : (processEvents f rand (unoccurredIndices occ) 0 occ c).1.all id = true
      · exfalso
        apply h
        simp only [simLoopAux, if_neg h1, if_pos h2]
        exact h2
      · have hrw : simLoopAux f rand (n + 1) step occ c =
            simLoopAux f rand n (step + 1)
              (processEvents f rand (unoccurredIndices occ) 0 occ c).1
              (processEvents f rand (unoccurredIndices occ) 0 occ c).2 := by
          simp only [simLoopAux, if_neg h1, if_neg h2]
        rw [hrw] at h ⊢
        rw [ih (step + 1) _ _ h]
        omega

/-! ### Behaviour of the batch loop -/

theorem collectTrials_length (trial : ℕ → ℕ × List Bool × ℕ) :
    ∀ (num c0 : ℕ), (collectTrials trial num c0).length = num := by
  intro num
  induction num with
  | zero => intro c0; rfl
  | succ n ih => intro c0; simp [collectTrials, ih]

theorem mem_collectTrials (trial : ℕ → ℕ × List Bool × ℕ) :
    ∀ (num c0 t : ℕ), t ∈ collectTrials trial num c0 → ∃ c, t = (trial c).1 := by
  intro num
  induction num with
  | zero => intro c0 t h; simp [collectTrials] at h
  | succ n ih =>
    intro c0 t h
    simp only [collectTrials, List.mem_cons] at h
    rcases h with h | h
    · exact ⟨c0, h⟩
    · exact ih _ t h

theorem trialCursor_shift (trial : ℕ → ℕ × List Bool × ℕ) (c0 : ℕ) :
    ∀ i, trialCursor trial ((trial c0).2.2) i = trialCursor trial c0 (i + 1) := by
  intro i
  induction i with
  | zero => rfl
  | succ n ih => simp only [trialCursor, ih]

theorem collectTrials_getD (trial : ℕ → ℕ × List Bool × ℕ) :
    ∀ (num c0 i : ℕ), i < num →
      (collectTrials trial num c0).getD i 0 = (trial (trialCursor trial c0 i)).1 := by
  intro num
  induction num with
  | zero => intro c0 i h; omega
  | succ n ih =>
    intro c0 i h
    cases i with
    | zero => rfl
    | succ i =>
      have hstep := ih (trial c0).2.2 i (by omega)
      rw [trialCursor_shift] at hstep
      simpa [collectTrials, List.getD] using hstep

/-! ### Trial-level bounds -/

theorem simulate_one_trial_fst (prob_list : List α) (rand : ℕ → α)
    (max_weeks cursor : ℕ) :
    (simulate_one_trial prob_list rand max_weeks cursor).1 =
      (simLoopAux (fun i => prob_list.getD i 0) rand max_weeks 0
        (List.replicate prob_list.length false) cursor).1 := rfl

theorem simulate_one_trial_daily_fst (prob_list : List ℝ) (rand : ℕ → ℝ)
    (max_weeks cursor : ℕ) :
    (simulate_one_trial_daily prob_list rand max_weeks cursor).1 =
      ((simLoopAux (fun i => dailyOf (prob_list.getD i 0)) rand (max_weeks * 7) 0
        (List.replicate prob_list.length false) cursor).1 + 6) / 7 := rfl

theorem simulate_one_trial_le (prob_list : List α) (rand : ℕ → α)
    (max_weeks cursor : ℕ) :
    (simulate_one_trial prob_list rand max_weeks cursor).1 ≤ max_weeks := by
  rw [simulate_one_trial_fst]
  have := simLoopAux_le (fun i => prob_list.getD i 0) rand max_weeks 0
    (List.replicate prob_list.length false) cursor
  omega

theorem simulate_one_trial_daily_le (prob_list : List ℝ) (rand : ℕ → ℝ)
    (max_weeks cursor : ℕ) :
    (simulate_one_trial_daily prob_list rand max_weeks cursor).1 ≤ max_weeks := by
  rw [simulate_one_trial_daily_fst]
  have := simLoopAux_le (fun i => dailyOf (prob_list.getD i 0)) rand (max_weeks * 7) 0
    (List.replicate prob_list.length false) cursor
  omega

/-! ### A concrete run of the fine (daily) variant

With base weekly probability `127/128` the daily conversion is exactly `1/2`
(a rational seventh root), so a run against the constant stream `2` (every
draw fails) can be evaluated in closed form. -/

theorem dailyOf_sample : dailyOf ((127 : ℝ) / 128) = 1 / 2 := by
  have h1 : (1 : ℝ) - 127 / 128 = (1 / 2 : ℝ) ^ ((7 : ℕ) : ℝ) := by
    rw [Real.rpow_natCast]
    norm_num
  rw [dailyOf, h1, ← Real.rpow_mul (by norm_num : (0 : ℝ) ≤ 1 / 2)]
  rw [show ((7 : ℕ) : ℝ) * ((1 : ℝ) / 7) = 1 by norm_num, Real.rpow_one]
  norm_num

theorem processEvents_fine_sample (c : ℕ) :
    processEvents (fun i => dailyOf (([(127 : ℝ) / 128]).getD i 0)) (fun _ => (2 : ℝ))
      [0] 0 [false] c = ([false], c + 1) := by
  have hno : ¬ ((2 : ℝ) < dailyOf (([(127 : ℝ) / 128]).getD 0 0) *
      (1 - (1 / 10 : ℝ) * ((0 : ℕ) : ℝ))) := by
    rw [show ([(127 : ℝ) / 128]).getD 0 0 = (127 : ℝ) / 128 from rfl, dailyOf_sample]
    norm_num
  simp only [processEvents]
  rw [if_neg (by norm_num : ¬ ((1 : ℝ) ≤ (1 / 10 : ℝ) * ((0 : ℕ) : ℝ)))]
  rw [if_neg hno]

theorem simLoopAux_fine_sample :
    ∀ (fuel s c : ℕ),
      simLoopAux (fun i => dailyOf (([(127 : ℝ) / 128]).getD i 0)) (fun _ => (2 : ℝ))
        fuel s [false] c = (s + fuel, [false], c + fuel) := by
  intro fuel
  induction fuel with
  | zero => intro s c; simp [simLoopAux]
  | succ n ih =>
    intro s c
    simp only [simLoopAux]
    rw [show unoccurredIndices [false] = [0] from rfl]
    rw [if_neg (by simp : ¬ ([0] : List ℕ) = [])]
    rw [processEvents_fine_sample c]
    rw [if_neg (by simp : ¬ (([false].all id) = true))]
    rw [ih (s + 1) (c + 1)]
    rw [show s + 1 + n = s + (n + 1) from by omega,
      show c + 1 + n = c + (n + 1) from by omega]

theorem trial_daily_sample (max_weeks c : ℕ) :
    simulate_one_trial_daily [(127 : ℝ) / 128] (fun _ => 2) max_weeks c =
      (max_weeks, [false], c + max_weeks * 7) := by
  have e : List.replicate ([(127 : ℝ) / 128]).length false = [false] := rfl
  simp only [simulate_one_trial_daily, e, simLoopAux_fine_sample]
  rw [show 0 + max_weeks * 7 + 6 = max_weeks * 7 + 6 from by omega]
  rw [show (max_weeks * 7 + 6) / 7 = max_weeks from by omega]

/-! ### The reported percentiles -/

/-- A linear-interpolation percentile of nonnegative data is nonnegative
(whatever `q` is), because the interpolation sits between two sorted values. -/
theorem npPercentile_nonneg (xs : List ℚ) (q : ℚ) (hxs : ∀ x ∈ xs, 0 ≤ x) :
    0 ≤ npPercentile xs q := by
  have hsel : ∀ x ∈ List.insertionSort (· ≤ ·) xs, 0 ≤ x := by
    intro x hx
    exact hxs x ((List.perm_insertionSort (· ≤ ·) xs).mem_iff.mp hx)
  have hsorted : (List.insertionSort (· ≤ ·) xs).Sorted (· ≤ ·) :=
    List.sorted_insertionSort (· ≤ ·) xs
  simp only [npPercentile]
  set s := List.insertionSort (· ≤ ·) xs with hs
  set h := ((xs.length : ℚ) - 1) * q / 100 with hh
  set lo := (⌊h⌋).toNat with hlo
  have hbelow : 0 ≤ s.getD lo 0 := getD_nonneg s lo 0 hsel le_rfl
  have habove : s.getD lo 0 ≤ s.getD (lo + 1) (s.getD lo 0) := by
    by_cases h1 : lo + 1 < s.length
    · have h0 : lo < s.length := by omega
      rw [getD_eq_get s (lo + 1) _ h1, getD_eq_get s lo _ h0]
      exact hsorted.rel_get_of_lt (by simp [Fin.lt_def])
    · rw [List.getD_eq_default s _ (by omega : s.length ≤ lo + 1)]
  have hfract : 0 ≤ h - (⌊h⌋ : ℚ) := sub_nonneg.mpr (Int.floor_le h)
  exact add_nonneg hbelow (mul_nonneg hfract (sub_nonneg.mpr habove))

/-! ### The claims -/

/-- C1: For every configuration (non-empty probability list, positive horizon,
positive trial count) and every random stream, every completion value produced
by the simulation satisfies `0 ≤ completion_step ≤ horizon`, in both the coarse
(weekly) and fine (daily) variants. -/
theorem completion_bounds (pq : List ℚ) (pr : List ℝ) (randq : ℕ → ℚ)
    (randr : ℕ → ℝ) (num_samples max_weeks : ℕ)
    (hpq : pq ≠ []) (hpr : pr ≠ []) (hn : 0 < num_samples) (hm : 0 < max_weeks) :
    (∀ t ∈ run_biased_timer_simulation pq randq num_samples max_weeks,
      0 ≤ t ∧ t ≤ max_weeks) ∧
    (∀ t ∈ run_biased_timer_simulation_daily pr randr num_samples max_weeks,
      0 ≤ t ∧ t ≤ max_weeks) := by
  constructor
  · intro t ht
    obtain ⟨c, rfl⟩ := mem_collectTrials _ _ _ _ ht
    exact ⟨Nat.zero_le _, simulate_one_trial_le pq randq max_weeks c⟩
  · intro t ht
    obtain ⟨c, rfl⟩ := mem_collectTrials _ _ _ _ ht
    exact ⟨Nat.zero_le _, simulate_one_trial_daily_le pr randr max_weeks c⟩

/-- Witness for C1 at a concrete configuration. -/
theorem completion_bounds_witness :
    (∀ t ∈ run_biased_timer_simulation [(1 : ℚ) / 2] (fun _ => 2) 1 1,
      0 ≤ t ∧ t ≤ 1) ∧
    (∀ t ∈ run_biased_timer_simulation_daily [(127 : ℝ) / 128] (fun _ => 2) 1 1,
      0 ≤ t ∧ t ≤ 1) :=
  completion_bounds [(1 : ℚ) / 2] [(127 : ℝ) / 128] (fun _ => 2) (fun _ => 2) 1 1
    (by simp) (by simp) (by omega) (by omega)

/-- C2: If a trial's step loop exits because the internal step limit was
reached while at least one event is still unoccurred, the value recorded for
that trial equals exactly the horizon in reporting units — saturation, not a
sentinel value and not an error. -/
theorem saturation_at_horizon (pq : List ℚ) (pr : List ℝ) (randq : ℕ → ℚ)
    (randr : ℕ → ℝ) (max_weeks cq cr : ℕ) :
    (¬ ((simulate_one_trial pq randq max_weeks cq).2.1.all id = true) →
      (simulate_one_trial pq randq max_weeks cq).1 = max_weeks) ∧
    (¬ ((simulate_one_trial_daily pr randr max_weeks cr).2.1.all id = true) →
      (simulate_one_trial_daily pr randr max_weeks cr).1 = max_weeks) := by
  constructor
  · intro h
    have hs := simLoopAux_saturate (fun i => pq.getD i 0) randq max_weeks 0
      (List.replicate pq.length false) cq h
    rw [simulate_one_trial_fst, hs]
    omega
  · intro h
    have hs := simLoopAux_saturate (fun i => dailyOf (pr.getD i 0)) randr (max_weeks * 7) 0
      (List.replicate pr.length false) cr h
    rw [simulate_one_trial_daily_fst, hs]
    omega

/-- Witness for C2: a saturated coarse trial (one event with probability 1/2
against draws that never succeed, horizon 2) records 2; a saturated fine trial
(daily probability exactly 1/2, every draw fails, horizon 3) records 3. -/
theorem saturation_at_horizon_witness :
    (¬ ((simulate_one_trial [(1 : ℚ) / 2] (fun _ => 2) 3 0).2.1.all id = true)) ∧
    (simulate_one_trial [(1 : ℚ) / 2] (fun _ => 2) 3 0).1 = 3 ∧
    (¬ ((simulate_one_trial_daily [(127 : ℝ) / 128] (fun _ => 2) 3 0).2.1.all id = true)) ∧
    (simulate_one_trial_daily [(127 : ℝ) / 128] (fun _ => 2) 3 0).1 = 3 := by
  have h := saturation_at_horizon [(1 : ℚ) / 2] [(127 : ℝ) / 128]
    (fun _ => 2) (fun _ => 2) 3 0 0
  have hq : ¬ ((simulate_one_trial [(1 : ℚ) / 2] (fun _ => 2) 3 0).2.1.all id = true) := by
    have e : simulate_one_trial [(1 : ℚ) / 2] (fun _ => 2) 3 0 = (3, [false], 3) :=
      of_decide_eq_true (by with_unfolding_all rfl)
    rw [e]
    simp
  have hr : ¬ ((simulate_one_trial_daily [(127 : ℝ) / 128] (fun _ => 2) 3 0).2.1.all id = true) := by
    rw [trial_daily_sample]
    simp
  exact ⟨hq, h.1 hq, hr, h.2 hr⟩

/-- C3: Within each step of a trial, the ordered list of unoccurred event
indices (defining ranks in original index order) is computed exactly once, at
the start of the step: the event of snapshot rank `k` ends the step occurred
iff `k < 10` and its own draw — the `k`-th draw of the step, reflecting
left-to-right evaluation — is below its penalized probability; an event firing
mid-step changes neither the rank, the penalty, nor the draw used for any
later event of the same step.  Stated for the coarse engine and for the fine
(daily) engine. -/
theorem step_rank_snapshot (pq : List ℚ) (randq : ℕ → ℚ) (pr : List ℝ)
    (randr : ℕ → ℝ) (occq occr : List Bool) (cq cr kq kr : ℕ)
    (hkq : kq < (unoccurredIndices occq).length)
    (hkr : kr < (unoccurredIndices occr).length) :
    (((processEvents (fun i => pq.getD i 0) randq (unoccurredIndices occq) 0 occq cq).1.getD
        ((unoccurredIndices occq).get ⟨kq, hkq⟩) false = true) ↔
      (kq < 10 ∧ randq (cq + kq) <
        pq.getD ((unoccurredIndices occq).get ⟨kq, hkq⟩) 0 *
          (1 - (1 / 10 : ℚ) * (kq : ℚ)))) ∧
    (((processEvents (fun i => dailyOf (pr.getD i 0)) randr
        (unoccurredIndices occr) 0 occr cr).1.getD
        ((unoccurredIndices occr).get ⟨kr, hkr⟩) false = true) ↔
      (kr < 10 ∧ randr (cr + kr) <
        dailyOf (pr.getD ((unoccurredIndices occr).get ⟨kr, hkr⟩) 0) *
          (1 - (1 / 10 : ℝ) * (kr : ℝ)))) :=
  ⟨step_flag_char _ _ _ _ _ hkq, step_flag_char _ _ _ _ _ hkr⟩

/-- Witness for C3 at a concrete two-event state. -/
theorem step_rank_snapshot_witness :
    (((processEvents (fun i => ([(1 : ℚ) / 2, 1 / 2]).getD i 0) (fun _ => 0)
        (unoccurredIndices [false, false]) 0 [false, false] 0).1.getD
        ((unoccurredIndices [false, false]).get ⟨1, by decide⟩) false = true) ↔
      (1 < 10 ∧ (0 : ℚ) <
        ([(1 : ℚ) / 2, 1 / 2]).getD ((unoccurredIndices [false, false]).get ⟨1, by decide⟩) 0 *
          (1 - (1 / 10 : ℚ) * ((1 : ℕ) : ℚ)))) ∧
    (((processEvents (fun i => dailyOf (([(127 : ℝ) / 128, 1 / 2]).getD i 0)) (fun _ => 2)
        (unoccurredIndices [false, false]) 0 [false, false] 0).1.getD
        ((unoccurredIndices [false, false]).get ⟨0, by decide⟩) false = true) ↔
      (0 < 10 ∧ (2 : ℝ) <
        dailyOf (([(127 : ℝ) / 128, 1 / 2]).getD
          ((unoccurredIndices [false, false]).get ⟨0, by decide⟩) 0) *
          (1 - (1 / 10 : ℝ) * ((0 : ℕ) : ℝ)))) := by
  have h := step_rank_snapshot [(1 : ℚ) / 2, 1 / 2] (fun _ => 0) [(127 : ℝ) / 128, 1 / 2]
    (fun _ => 2) [false, false] [false, false] 0 0 1 0 (by decide) (by decide)
  constructor
  · constructor
    · intro hx
      exact ⟨by omega, by simpa using (h.1.mp hx).2⟩
    · intro hx
      exact h.1.mpr ⟨by omega, by simpa using hx.2⟩
  · constructor
    · intro hx
      exact ⟨by omega, by simpa using (h.2.mp hx).2⟩
    · intro hx
      exact h.2.mpr ⟨by omega, by simpa using hx.2⟩

/-- C4: For every step of every trial, an unoccurred event whose rank `k` in
that step satisfies `0.1 * k ≥ 1.0` (i.e. `k ≥ 10`) can never be marked
occurred during that step regardless of its base probability (its flag is
still false after the step), and no random draw is consumed for it: the cursor
advances by exactly `min (number of unoccurred events) 10`, one draw per
not-fully-penalized, not-yet-occurred event. -/
theorem full_penalty_cutoff (prob_list : List ℚ) (rand : ℕ → ℚ) (occ : List Bool)
    (c k : ℕ) (hk : k < (unoccurredIndices occ).length) (h10 : 10 ≤ k) :
    (processEvents (fun i => prob_list.getD i 0) rand (unoccurredIndices occ) 0 occ c).1.getD
      ((unoccurredIndices occ).get ⟨k, hk⟩) false = false ∧
    (processEvents (fun i => prob_list.getD i 0) rand (unoccurredIndices occ) 0 occ c).2 =
      c + min (unoccurredIndices occ).length 10 := by
  constructor
  · by_cases hb : (processEvents (fun i => prob_list.getD i 0) rand
        (unoccurredIndices occ) 0 occ c).1.getD
        ((unoccurredIndices occ).get ⟨k, hk⟩) false = true
    · exact absurd ((step_flag_char (fun i => prob_list.getD i 0) rand occ c k hk).mp hb).1
        (by omega)
    · exact Bool.eq_false_iff.mpr hb
  · have := processEvents_cursor (fun i => prob_list.getD i 0) rand
      (unoccurredIndices occ) 0 occ c
    simpa using this

/-- Witness for C4: eleven always-eager events (probability 1/5, every draw
0 so any allowed event fires), the event at rank 10 stays unoccurred and
exactly ten draws are consumed. -/
theorem full_penalty_cutoff_witness :
    (processEvents (fun i => (List.replicate 11 ((1 : ℚ) / 5)).getD i 0) (fun _ => 0)
      (unoccurredIndices (List.replicate 11 false)) 0 (List.replicate 11 false) 0).1.getD
      ((unoccurredIndices (List.replicate 11 false)).get ⟨10, by decide⟩) false = false ∧
    (processEvents (fun i => (List.replicate 11 ((1 : ℚ) / 5)).getD i 0) (fun _ => 0)
      (unoccurredIndices (List.replicate 11 false)) 0 (List.replicate 11 false) 0).2 =
      0 + min (unoccurredIndices (List.replicate 11 false)).length 10 :=
  full_penalty_cutoff (List.replicate 11 ((1 : ℚ) / 5)) (fun _ => 0)
    (List.replicate 11 false) 0 10 (by decide) (by omega)

/-- C5: In the fine (daily) resolution variant, the per-day probability used
for each event equals exactly `daily = 1 - (1 - base_p)^(1/7)`, so that seven
independent daily sub-trials compound exactly to the stated weekly probability
(`1 - (1 - daily)^7 = base_p`), with no approximation; and in the fine engine
the firing condition at rank `k` compares the draw against
`daily * (1 - 0.1 * k)`. -/
theorem daily_conversion_exact (p : ℝ) (h0 : 0 < p) (h1 : p < 1) :
    dailyOf p = 1 - (1 - p) ^ ((1 : ℝ) / 7) ∧
    1 - (1 - dailyOf p) ^ (7 : ℕ) = p ∧
    ∀ (prob_list : List ℝ) (rand : ℕ → ℝ) (occ : List Bool) (c k : ℕ)
      (hk : k < (unoccurredIndices occ).length),
      ((processEvents (fun i => dailyOf (prob_list.getD i 0)) rand
          (unoccurredIndices occ) 0 occ c).1.getD
          ((unoccurredIndices occ).get ⟨k, hk⟩) false = true ↔
        (k < 10 ∧ rand (c + k) <
          dailyOf (prob_list.getD ((unoccurredIndices occ).get ⟨k, hk⟩) 0) *
            (1 - (1 / 10 : ℝ) * (k : ℝ)))) := by
  refine ⟨rfl, ?_, fun prob_list rand occ c k hk => step_flag_char _ _ _ _ _ hk⟩
  have hb : (1 : ℝ) - dailyOf p = (1 - p) ^ ((1 : ℝ) / 7) := by
    rw [dailyOf]; ring
  rw [hb, ← Real.rpow_natCast ((1 - p) ^ ((1 : ℝ) / 7)) 7,
    ← Real.rpow_mul (by linarith : (0 : ℝ) ≤ 1 - p)]
  rw [show (1 : ℝ) / 7 * ((7 : ℕ) : ℝ) = 1 by norm_num, Real.rpow_one]
  ring

/-- Witness for C5 at `p = 1/2`. -/
theorem daily_conversion_exact_witness :
    dailyOf ((1 : ℝ) / 2) = 1 - (1 - (1 : ℝ) / 2) ^ ((1 : ℝ) / 7) ∧
    1 - (1 - dailyOf ((1 : ℝ) / 2)) ^ (7 : ℕ) = (1 : ℝ) / 2 := by
  have h := daily_conversion_exact ((1 : ℝ) / 2) (by norm_num) (by norm_num)
  exact ⟨h.1, h.2.1⟩

/-- C6 counterexample: the engine performs no validation at all.  On the
invalid configuration with an empty event list it does not fail and does not
return an empty/partial result: it produces a full collection of results (each
trial recording week 1). -/
theorem no_validation_counterexample :
    run_biased_timer_simulation ([] : List ℚ) (fun _ => 0) 3 5 = [1, 1, 1] ∧
    run_biased_timer_simulation ([] : List ℚ) (fun _ => 0) 3 5 ≠ [] := by
  have h : run_biased_timer_simulation ([] : List ℚ) (fun _ => 0) 3 5 = [1, 1, 1] :=
    of_decide_eq_true (by with_unfolding_all rfl)
  exact ⟨h, by rw [h]; simp⟩

/-- C6 (amended): The engine performs no fail-fast configuration validation:
an empty event list, a zero trial count, a zero horizon, and out-of-range base
probabilities (any rational value in the coarse variant; any value at most 1
in the fine variant, where the Python power `(1 - p)**(1/7)` is still
real-valued) are all accepted without a configuration error, and a complete
result collection of exactly `num_samples` completion values is produced.
Outside this domain the program can abort — `np.zeros` rejects a negative
trial count, and a fine-variant probability above 1 makes the power complex
so the draw comparison raises mid-trial — but those are library/runtime
errors, not the spec's configuration check before any trial runs, and they
are outside this shallow embedding (Nat-typed count, real-valued `dailyOf`);
the totality below is therefore stated only on the engine's real-valued
domain. -/
theorem no_validation_total_on_domain (pq : List ℚ) (pr : List ℝ)
    (randq : ℕ → ℚ) (randr : ℕ → ℝ) (num_samples max_weeks : ℕ)
    (hpr : ∀ p ∈ pr, p ≤ 1) :
    (run_biased_timer_simulation pq randq num_samples max_weeks).length = num_samples ∧
    (run_biased_timer_simulation_daily pr randr num_samples max_weeks).length = num_samples :=
  ⟨collectTrials_length _ _ _, collectTrials_length _ _ _⟩

/-- Witness for the amended C6: a coarse run with the out-of-range base
probability 2 and a fine run with base probability 1/2 both return complete
three-element collections. -/
theorem no_validation_total_on_domain_witness :
    (run_biased_timer_simulation [(2 : ℚ)] (fun _ => 0) 3 2).length = 3 ∧
    (run_biased_timer_simulation_daily [(1 : ℝ) / 2] (fun _ => 0) 3 2).length = 3 :=
  no_validation_total_on_domain [(2 : ℚ)] [(1 : ℝ) / 2] (fun _ => 0) (fun _ => 0) 3 2
    (fun p hp => by rw [List.mem_singleton] at hp; rw [hp]; norm_num)

/-- C7: The batch driver returns an ordered sequence of exactly `num_samples`
completion values; the `i`-th element is the value of the `i`-th trial in
submission order, and each trial starts from freshly initialized local state
(all events unoccurred, step counter 0): its outcome is a function of the
configuration and of its own starting position in the random stream only. -/
theorem batch_order_fresh_state (prob_list : List ℚ) (rand : ℕ → ℚ)
    (num_samples max_weeks : ℕ) :
    (run_biased_timer_simulation prob_list rand num_samples max_weeks).length
      = num_samples ∧
    ∀ i, i < num_samples →
      (run_biased_timer_simulation prob_list rand num_samples max_weeks).getD i 0 =
        (simLoopAux (fun j => prob_list.getD j 0) rand max_weeks 0
          (List.replicate prob_list.length false)
          (trialCursor (simulate_one_trial prob_list rand max_weeks) 0 i)).1 := by
  refine ⟨collectTrials_length _ _ _, fun i hi => ?_⟩
  exact collectTrials_getD _ _ _ _ hi

/-- Witness for C7 at a concrete two-trial batch. -/
theorem batch_order_fresh_state_witness :
    (run_biased_timer_simulation [(1 : ℚ) / 2] (fun _ => 0) 2 5).length = 2 ∧
    (run_biased_timer_simulation [(1 : ℚ) / 2] (fun _ => 0) 2 5).getD 1 0 =
      (simLoopAux (fun j => ([(1 : ℚ) / 2]).getD j 0) (fun _ => 0) 5 0
        (List.replicate ([(1 : ℚ) / 2]).length false)
        (trialCursor (simulate_one_trial [(1 : ℚ) / 2] (fun _ => 0) 5) 0 1)).1 := by
  have h := batch_order_fresh_state [(1 : ℚ) / 2] (fun _ => 0) 2 5
  exact ⟨h.1, h.2 1 (by omega)⟩

/-- C8: For a fixed configuration and a fixed random stream, both a single
trial and the whole batch are fully deterministic: two runs fed pointwise
identical random streams produce identical results, in both variants. -/
theorem deterministic_replay (pq : List ℚ) (pr : List ℝ) (r1 r2 : ℕ → ℚ)
    (s1 s2 : ℕ → ℝ) (num_samples max_weeks cursor : ℕ)
    (hq : ∀ k, r1 k = r2 k) (hr : ∀ k, s1 k = s2 k) :
    simulate_one_trial pq r1 max_weeks cursor = simulate_one_trial pq r2 max_weeks cursor ∧
    run_biased_timer_simulation pq r1 num_samples max_weeks =
      run_biased_timer_simulation pq r2 num_samples max_weeks ∧
    simulate_one_trial_daily pr s1 max_weeks cursor =
      simulate_one_trial_daily pr s2 max_weeks cursor ∧
    run_biased_timer_simulation_daily pr s1 num_samples max_weeks =
      run_biased_timer_simulation_daily pr s2 num_samples max_weeks := by
  have e1 : r1 = r2 := funext hq
  have e2 : s1 = s2 := funext hr
  rw [e1, e2]
  exact ⟨rfl, rfl, rfl, rfl⟩

/-- Witness for C8 with two syntactically different but pointwise equal
streams. -/
theorem deterministic_replay_witness :
    simulate_one_trial [(1 : ℚ) / 2] (fun _ => 1) 3 0 =
      simulate_one_trial [(1 : ℚ) / 2] (fun _ => 2 - 1) 3 0 ∧
    run_biased_timer_simulation [(1 : ℚ) / 2] (fun _ => 1) 4 3 =
      run_biased_timer_simulation [(1 : ℚ) / 2] (fun _ => 2 - 1) 4 3 ∧
    simulate_one_trial_daily [(1 : ℝ) / 2] (fun _ => 1) 3 0 =
      simulate_one_trial_daily [(1 : ℝ) / 2] (fun _ => 2 - 1) 3 0 ∧
    run_biased_timer_simulation_daily [(1 : ℝ) / 2] (fun _ => 1) 4 3 =
      run_biased_timer_simulation_daily [(1 : ℝ) / 2] (fun _ => 2 - 1) 4 3 :=
  deterministic_replay [(1 : ℚ) / 2] [(1 : ℝ) / 2] (fun _ => 1) (fun _ => 2 - 1)
    (fun _ => 1) (fun _ => 2 - 1) 4 3 0 (fun k => by norm_num) (fun k => by norm_num)

/-- C9 counterexample: on the collection `[1, 4]` the reported median is
`int(np.percentile([1,4], 50)) = 2`, while the linear-interpolation percentile
is `5/2` and the nearest-rank percentile is `1`; the reported integer equals
neither, so the reported statistics are not the percentiles of either method. -/
theorem percentile_method_counterexample :
    (mainSummary [1, 4]).2.1 = 2 ∧
    npPercentile [(1 : ℚ), 4] 50 = 5 / 2 ∧
    nearestRankPercentile [(1 : ℚ), 4] 50 = 1 ∧
    (((mainSummary [1, 4]).2.1 : ℚ) ≠ npPercentile [(1 : ℚ), 4] 50) ∧
    (((mainSummary [1, 4]).2.1 : ℚ) ≠ nearestRankPercentile [(1 : ℚ), 4] 50) :=
  of_decide_eq_true (by with_unfolding_all rfl)

/-- C9 (amended): The three reported summary statistics are the floors
(equivalently, since the data are nonnegative, the Python `int` truncations)
of the 25th, 50th and 75th linear-interpolation percentiles of the result
collection. -/
theorem summary_floor_of_linear (ws : List ℕ) :
    mainSummary ws =
      (⌊npPercentile (ws.map (Nat.cast : ℕ → ℚ)) 25⌋,
        ⌊npPercentile (ws.map (Nat.cast : ℕ → ℚ)) 50⌋,
        ⌊npPercentile (ws.map (Nat.cast : ℕ → ℚ)) 75⌋) := by
  have hnn : ∀ x ∈ ws.map (Nat.cast : ℕ → ℚ), 0 ≤ x := by
    intro x hx
    obtain ⟨t, -, rfl⟩ := List.mem_map.mp hx
    exact Nat.cast_nonneg t
  have h25 := npPercentile_nonneg _ 25 hnn
  have h50 := npPercentile_nonneg _ 50 hnn
  have h75 := npPercentile_nonneg _ 75 hnn
  unfold mainSummary pyInt
  rw [if_neg (not_lt.mpr h25), if_neg (not_lt.mpr h50), if_neg (not_lt.mpr h75)]

/-- C10: With horizon at least 1 every completion value is at least 1 (never
0), because the week counter increments before the empty-unoccurred-set check;
in particular an empty event list is accepted, and then every trial records
completion value 1. -/
theorem completion_at_least_one (prob_list : List ℚ) (rand : ℕ → ℚ)
    (num_samples max_weeks : ℕ) (hm : 1 ≤ max_weeks) :
    (∀ t ∈ run_biased_timer_simulation prob_list rand num_samples max_weeks, 1 ≤ t) ∧
    run_biased_timer_simulation ([] : List ℚ) rand num_samples max_weeks =
      List.replicate num_samples 1 := by
  constructor
  · intro t ht
    obtain ⟨c, rfl⟩ := mem_collectTrials _ _ _ _ ht
    have := simLoopAux_pos (fun i => prob_list.getD i 0) rand max_weeks 0
      (List.replicate prob_list.length false) c (by omega)
    rw [simulate_one_trial_fst]
    omega
  · have htrial : ∀ c, simulate_one_trial ([] : List ℚ) rand max_weeks c = (1, [], c) := by
      intro c
      cases max_weeks with
      | zero => omega
      | succ m => simp [simulate_one_trial, simLoopAux, unoccurredIndices]
    have hbatch : ∀ n c,
        collectTrials (simulate_one_trial ([] : List ℚ) rand max_weeks) n c =
          List.replicate n 1 := by
      intro n
      induction n with
      | zero => intro c; rfl
      | succ k ih => intro c; simp [collectTrials, htrial, ih, List.replicate]
    exact hbatch num_samples 0

/-- Witness for C10 at horizon 1 with two trials. -/
theorem completion_at_least_one_witness :
    (∀ t ∈ run_biased_timer_simulation [(1 : ℚ) / 2] (fun _ => 0) 2 1, 1 ≤ t) ∧
    run_biased_timer_simulation ([] : List ℚ) (fun _ => 0) 2 1 = List.replicate 2 1 :=
  completion_at_least_one [(1 : ℚ) / 2] (fun _ => 0) 2 1 (by omega)

end Timer
